import Mathlib

/-!
Shallow embedding of the hybrid structural-semantic retrieval engine of the
DELINEATE-AND-DECIPHER repository (src/pdf_processor.py, src/retrieval.py,
src/vector_store.py, src/config.py), together with proofs settling the
specification claims about it.

Texts are modelled as lists of characters; Python dictionaries holding chunk
and block data are modelled as records; the external collaborators (embedding
model, faiss index, cross-encoder reranker, text splitter) are parameters, and
a call of one of them that may raise is modelled with `Except`.  Floating
point scores and distances are modelled as integers: only their ordering
matters to the claims.
-/

/-- ASCII whitespace as recognised by Python's str.strip and the regex class \s
(the documents in scope are ASCII). -/
def pyWs (c : Char) : Bool :=
  c == ' ' || c == '\t' || c == '\n' || c == '\x0b' || c == '\x0c' || c == '\r'

/-- Python str.strip(): drop leading and trailing whitespace. -/
def pystrip (cs : List Char) : List Char :=
  ((cs.dropWhile pyWs).reverse.dropWhile pyWs).reverse

/-- Python text.split(chr(10)): split a text into its lines. -/
def splitLines : List Char → List (List Char)
  | [] => [[]]
  | c :: cs =>
    if c == '\n' then [] :: splitLines cs
    else
      match splitLines cs with
      | [] => [[c]]
      | l :: ls => (c :: l) :: ls

/-- Emit the word collected in the reversed accumulator, if any. -/
def flushW (acc : List Char) : List (List Char) :=
  if acc = [] then [] else [acc.reverse]

/-- Worker for `words`: walk the text keeping the current word reversed in `acc`. -/
def wordsAux : List Char → List Char → List (List Char)
  | [], acc => flushW acc
  | c :: cs, acc => if pyWs c then flushW acc ++ wordsAux cs [] else wordsAux cs (c :: acc)

/-- The whitespace-separated words of a text.  Two texts are equal up to
whitespace normalization exactly when their word lists are equal. -/
def words (cs : List Char) : List (List Char) := wordsAux cs []

/-- Character class [A-Za-z\s,:-] of the heading pattern's title part. -/
def isTitleChar (c : Char) : Bool :=
  c.isAlpha || pyWs c || c == ',' || c == ':' || c == '-'

/-- Rest of the title after its leading capital: one or more title characters,
running to the end of the line. -/
def titleTail (cs : List Char) : Bool := !cs.isEmpty && cs.all isTitleChar

/-- After at least one whitespace character: optionally more whitespace, then a
capital letter and a nonempty title tail, to the end of the line. -/
def titleRest : List Char → Bool
  | [] => false
  | c :: cs => (c.isUpper && titleTail cs) || (pyWs c && titleRest cs)

/-- The suffix \s+([A-Z][A-Za-z\s,:-]+)$ of the heading pattern. -/
def wsThenTitle : List Char → Bool
  | [] => false
  | c :: cs => pyWs c && titleRest cs

/-- The group (\.\d{1,2})* followed by the continuation `k`, with the regex
engine's backtracking order: a further two-digit repetition first, then a
one-digit repetition, then leaving the group. -/
def numTail (k : List Char → Bool) : List Char → Bool
  | '.' :: a :: b :: rest =>
    (a.isDigit && b.isDigit && numTail k rest) ||
    (a.isDigit && numTail k (b :: rest)) ||
    k ('.' :: a :: b :: rest)
  | '.' :: a :: rest =>
    (a.isDigit && numTail k rest) || k ('.' :: a :: rest)
  | cs => k cs

/-- The group \d{1,2}(\.\d{1,2})* followed by the continuation `k` (two digits
tried before one, as a greedy regex engine does). -/
def num12 (k : List Char → Bool) : List Char → Bool
  | a :: b :: rest =>
    (a.isDigit && b.isDigit && numTail k rest) || (a.isDigit && numTail k (b :: rest))
  | [a] => a.isDigit && numTail k []
  | [] => false

/-- Match a literal character sequence at the front, returning the remainder. -/
def dropLead : List Char → List Char → Option (List Char)
  | [], cs => some cs
  | _ :: _, [] => none
  | p :: ps, c :: cs => if c == p then dropLead ps cs else none

def chapterChars : List Char := ['C', 'H', 'A', 'P', 'T', 'E', 'R', ' ']

/-- The alternative CHAPTER \d+ followed by the continuation `k`: the literal
word, a maximal nonempty digit run, then `k` (shorter digit runs would leave a
digit where `k` demands whitespace, so the greedy run is the only viable one). -/
def chapterMatch (k : List Char → Bool) (cs : List Char) : Bool :=
  match dropLead chapterChars cs with
  | none => false
  | some rest =>
    !(rest.takeWhile Char.isDigit).isEmpty && k (rest.dropWhile Char.isDigit)

/-- Python re.match of Config.HEADING_REGEX_PATTERN, the anchored pattern
^(CHAPTER \d+|(\d{1,2}(\.\d{1,2})*))\s+([A-Z][A-Za-z\s,:-]+)$ . -/
def headingMatch (cs : List Char) : Bool :=
  chapterMatch wsThenTitle cs || num12 wsThenTitle cs

/-- One or more whitespace characters, consumed greedily; remainder returned. -/
def wsPlusDrop : List Char → Option (List Char)
  | c :: cs => if pyWs c then some (cs.dropWhile pyWs) else none
  | [] => none

/-- The group (\.\d{1,2})* then \s+, returning the remainder after the first
match in backtracking order (used by the numbering-stripping re.sub). -/
def numTailSub : List Char → Option (List Char)
  | '.' :: a :: b :: rest =>
    (if a.isDigit && b.isDigit then numTailSub rest else none) <|>
    (if a.isDigit then numTailSub (b :: rest) else none) <|>
    wsPlusDrop ('.' :: a :: b :: rest)
  | '.' :: a :: rest =>
    (if a.isDigit then numTailSub rest else none) <|> wsPlusDrop ('.' :: a :: rest)
  | cs => wsPlusDrop cs

/-- The group \d{1,2}(\.\d{1,2})* then \s+, remainder after the match. -/
def num12Sub : List Char → Option (List Char)
  | a :: b :: rest =>
    (if a.isDigit && b.isDigit then numTailSub rest else none) <|>
    (if a.isDigit then numTailSub (b :: rest) else none)
  | [a] => if a.isDigit then numTailSub [] else none
  | [] => none

/-- The alternative CHAPTER \d+ then \s+, remainder after the match. -/
def chapterSub (cs : List Char) : Option (List Char) :=
  match dropLead chapterChars cs with
  | none => none
  | some rest =>
    if (rest.takeWhile Char.isDigit).isEmpty then none
    else wsPlusDrop (rest.dropWhile Char.isDigit)

/-- Python re.sub of the anchored prefix pattern
^(CHAPTER \d+|(\d{1,2}(\.\d{1,2})*))\s+ with the empty string, as used on
headings in structural_search: remove a leading numbering prefix if present. -/
def stripHeadingNum (cs : List Char) : List Char :=
  match chapterSub cs <|> num12Sub cs with
  | some rest => rest
  | none => cs

/-- Python str.lower() on ASCII text. -/
def lowerChars (cs : List Char) : List Char := cs.map Char.toLower

/-- Whether the needle occurs at the very front of the haystack. -/
def leadEq : List Char → List Char → Bool
  | [], _ => true
  | _ :: _, [] => false
  | a :: as, b :: bs => a == b && leadEq as bs

/-- Python substring test: needle in haystack. -/
def containsSeq (needle : List Char) : List Char → Bool
  | [] => leadEq needle []
  | c :: cs => leadEq needle (c :: cs) || containsSeq needle cs

/-- The structural hit test of structural_search: the heading with its
numbering prefix stripped and lower-cased occurs inside the lower-cased
query (clean_heading in query.lower()). -/
def headingHit (query heading : List Char) : Bool :=
  containsSeq (lowerChars (stripHeadingNum heading)) (lowerChars query)

example : ("ab".data = ['a', 'b']) := rfl
example : headingMatch ("1 Introduction".data) = true := by decide
example : headingMatch ("12.3 Deep, Dive".data) = true := by decide
example : headingMatch ("123 Nope".data) = false := by decide
example : headingMatch ("CHAPTER 7 Title".data) = true := by decide
example : headingMatch ("CHAPTER 7  Title".data) = true := by decide
example : headingMatch ("hello world".data) = false := by decide
example : headingMatch ("1 Intro.".data) = false := by decide
example : headingMatch [] = false := by decide
example : stripHeadingNum ("1.2.3   Deep".data) = ("Deep".data) := by decide
example : stripHeadingNum ("CHAPTER 12 Intro".data) = ("Intro".data) := by decide
example : stripHeadingNum ("123 X".data) = ("123 X".data) := by decide
example : stripHeadingNum ("bb".data) = ("bb".data) := by decide
example : headingHit ("tell me about methodology".data) ("2. Methodology".data) = false := by decide
example : headingHit ("tell me about methodology".data) ("2 Methodology".data) = true := by decide
example : words ("1 Introduction\nhello".data) = [("1".data), ("Introduction".data), ("hello".data)] := by decide
example : pystrip ("  a b ".data) = ("a b".data) := by decide
example : splitLines ("a\nb".data) = [("a".data), ("b".data)] := by decide

/-- A retrievable passage with provenance metadata, modelling the Python chunk
dictionary of pdf_processor.create_metadata_chunks; the two optional score
fields model the keys attached at query time. -/
structure Chunk where
  text : List Char
  page_number : Nat
  heading : List Char
  similarity_score : Option Int := none
  rerank_score : Option Int := none
deriving DecidableEq

/-- A structured text block of pdf_processor.extract_structured_text. -/
structure Block where
  page_number : Nat
  heading : List Char
  content : List Char
deriving DecidableEq

def defaultChunk : Chunk := ⟨[], 0, [], none, none⟩

/-- Config.SEMANTIC_SEARCH_TOP_K. -/
def SEMANTIC_SEARCH_TOP_K : Nat := 20
/-- Config.STRUCTURAL_SEARCH_TOP_K. -/
def STRUCTURAL_SEARCH_TOP_K : Nat := 10
/-- Config.SEMANTIC_FALLBACK_TOP_K. -/
def SEMANTIC_FALLBACK_TOP_K : Nat := 5
/-- Config.DEFAULT_HEADING. -/
def DEFAULT_HEADING : List Char := ("Introduction".data)

/-- Stable insertion of `a` into `l`: `a` is placed in front of the first
element `b` with `before a b`.  Folding it over a list reproduces Python's
stable sorted(). -/
def insertOrd (before : α → α → Bool) (a : α) : List α → List α
  | [] => [a]
  | b :: bs => if before a b then a :: b :: bs else b :: insertOrd before a bs

/-- Model of Python's stable sorted(): the earliest element is inserted last,
so with a non-strict descending test (or a strict ascending test) elements
with equal keys keep their original relative order. -/
def sortOrd (before : α → α → Bool) (l : List α) : List α :=
  l.foldr (insertOrd before) []

/-- Python string comparison: code-point lexicographic order. -/
def lexLt : List Char → List Char → Bool
  | [], [] => false
  | [], _ :: _ => true
  | _ :: _, [] => false
  | a :: as, b :: bs => decide (a < b) || (a == b && lexLt as bs)

/-- Python tuple key (len(x), x) comparison used to sort unique headings. -/
def keyLt (a b : List Char) : Bool :=
  decide (a.length < b.length) || (a.length == b.length && lexLt a b)

/-- Worker for `dedupFirst`, carrying the elements already seen. -/
def dedupAux [DecidableEq α] (seen : List α) : List α → List α
  | [] => []
  | x :: xs => if x ∈ seen then dedupAux seen xs else x :: dedupAux (x :: seen) xs

/-- Deduplicate keeping first occurrences: a canonical model of Python's
set(); the arbitrary set order is irrelevant because the result is sorted. -/
def dedupFirst [DecidableEq α] (l : List α) : List α := dedupAux [] l

/-- sorted(list(set(chunk['heading'] for chunk in chunks)), key=(len(x), x)). -/
def uniqueHeadingsSorted (chunks : List Chunk) : List (List Char) :=
  sortOrd keyLt (dedupFirst (chunks.map (fun c => c.heading)))

/-- src/retrieval.py structural_search: walk the sorted unique headings and
collect, for every heading hit by the query, the chunks of that heading in
their list order.  The st.success UI call has no effect on the result. -/
def structural_search (query : List Char) (chunks : List Chunk) : List Chunk :=
  (uniqueHeadingsSorted chunks).foldl
    (fun acc heading =>
      if headingHit query heading then acc ++ chunks.filter (fun c => c.heading == heading)
      else acc)
    []

/-- Modelled from the spec (spec 4.4): the Structural Matcher result order the
specification asks for, headings in first-appearance order; kept for
comparison against the implementation order. -/
def structural_search_spec_order (query : List Char) (chunks : List Chunk) : List Chunk :=
  ((dedupFirst (chunks.map (fun c => c.heading))).filter (headingHit query)).flatMap
    (fun h => chunks.filter (fun c => c.heading == h))

/-- Python chunks[idx] on an integer index: negative indices address from the
end; an index out of range on either side raises (modelled as none). -/
def pyGetChunk (chunks : List Chunk) (idx : Int) : Option Chunk :=
  let j : Int := if idx < 0 then (chunks.length : Int) + idx else idx
  if 0 ≤ j then chunks.get? j.toNat else none

/-- The loop of semantic_search over the faiss output pairs (index, distance):
keep every pair whose index passes the guard idx < len(chunks), copying the
selected chunk and attaching the distance; a failing list access raises. -/
def semGather (chunks : List Chunk) : List (Int × Int) → Except Unit (List Chunk)
  | [] => .ok []
  | (idx, dist) :: rest =>
    if idx < (chunks.length : Int) then
      match pyGetChunk chunks idx with
      | none => .error ()
      | some c =>
        match semGather chunks rest with
        | .error e => .error e
        | .ok tail => .ok ({ c with similarity_score := some dist } :: tail)
    else semGather chunks rest

/-- src/retrieval.py semantic_search, identical in logic to
src/vector_store.py search_vector_store.  The embedding of the query and the
faiss index.search call are an external collaborator whose outcome (or raised
exception) is `searchOut`; any exception inside the try block yields []. -/
def semantic_search (searchOut : Except (List Char) (List (Int × Int)))
    (chunks : List Chunk) : List Chunk :=
  match searchOut with
  | .error _ => []
  | .ok pairs =>
    match semGather chunks pairs with
    | .error _ => []
    | .ok res => res

/-- Sort key x['rerank_score'] (0 when absent, which never happens on the
sorted path since every chunk was annotated just before). -/
def scoreKey (c : Chunk) : Int := c.rerank_score.getD 0

/-- Descending, tie-stable insertion test for sorted(..., reverse=True). -/
def scoreBefore (a b : Chunk) : Bool := decide (scoreKey b ≤ scoreKey a)

/-- The annotation loop chunk['rerank_score'] = float(scores[i]). -/
def annotateScores (chunks : List Chunk) (scores : List Int) : List Chunk :=
  List.zipWith (fun c s => { c with rerank_score := some s }) chunks scores

/-- The type of the reranker.predict collaborator: scores for a list of
(query, passage) pairs, or a raised exception. -/
abbrev PredictFn : Type := List (List Char × List Char) → Except (List Char) (List Int)

/-- src/retrieval.py rerank_results.  Empty input returns [] before predict is
called.  When predict raises, the except branch returns the candidates as they
were.  When predict returns fewer scores than chunks (impossible for a real
cross-encoder), the annotation loop raises IndexError after annotating the
first |scores| chunks and the except branch returns the list in original
order; otherwise all chunks are annotated and stably sorted by descending
rerank score. -/
def rerank_results (query : List Char) (chunks : List Chunk) (predictE : PredictFn) :
    List Chunk :=
  if chunks = [] then []
  else
    match predictE (chunks.map (fun c => (query, c.text))) with
    | .error _ => chunks
    | .ok scores =>
      if chunks.length ≤ scores.length then
        sortOrd scoreBefore (annotateScores chunks scores)
      else annotateScores chunks scores ++ chunks.drop scores.length

/-- A well-behaved reranker built from a total pairwise scorer, as the spec's
external interface section describes the cross-encoder collaborator. -/
def totalPredict (scorer : List Char → List Char → Int) : PredictFn :=
  fun pairs => .ok (pairs.map (fun p => scorer p.1 p.2))

/-- The type of the (embedding model + faiss index) collaborator: a query and
top_k produce the faiss (index, distance) rows, or a raised exception. -/
abbrev SemOracle : Type := List Char → Nat → Except (List Char) (List (Int × Int))

/-- src/retrieval.py advanced_retrieval: structural pass first; on a hit the
reranked structural chunks truncated to STRUCTURAL_SEARCH_TOP_K, otherwise the
semantic fallback truncated to SEMANTIC_FALLBACK_TOP_K, otherwise []. -/
def advanced_retrieval (query : List Char) (chunks : List Chunk)
    (semOracle : SemOracle) (predictE : PredictFn) : List Chunk :=
  let structural_results := structural_search query chunks
  if structural_results ≠ [] then
    (rerank_results query structural_results predictE).take STRUCTURAL_SEARCH_TOP_K
  else
    let semantic_results := semantic_search (semOracle query SEMANTIC_SEARCH_TOP_K) chunks
    if semantic_results ≠ [] then
      (rerank_results query semantic_results predictE).take SEMANTIC_FALLBACK_TOP_K
    else []

/-- Decimal digits of a number, for the messages that interpolate len(chunks). -/
def natChars (n : Nat) : List Char := (toString n).data

/-- One formatted context part of format_context_for_llm. -/
def contextPart (c : Chunk) : List Char :=
  ("--- Context from Page ".data) ++ natChars c.page_number ++ (", Section: ".data) ++
    c.heading ++ (" ---\n".data) ++ c.text

/-- Python sep.join(parts). -/
def joinSep (sep : List Char) : List (List Char) → List Char
  | [] => []
  | [x] => x
  | x :: y :: rest => x ++ sep ++ joinSep sep (y :: rest)

/-- src/retrieval.py format_context_for_llm. -/
def format_context_for_llm (retrieved : List Chunk) : List Char :=
  if retrieved = [] then ("No relevant context found.".data)
  else joinSep ("\n\n".data) (retrieved.map contextPart)

/-- The statistics record of get_search_statistics; the mean score is a
rational, modelling the float division. -/
structure SearchStats where
  total_chunks : Nat
  unique_pages : Nat
  unique_sections : Nat
  avg_rerank_score : Rat
  score_range : Int × Int
deriving DecidableEq

/-- Python min over a nonempty list (0 only as an unused placeholder). -/
def listMinI : List Int → Int
  | [] => 0
  | x :: xs => xs.foldl min x

/-- Python max over a nonempty list (0 only as an unused placeholder). -/
def listMaxI : List Int → Int
  | [] => 0
  | x :: xs => xs.foldl max x

/-- src/retrieval.py get_search_statistics; chunk.get('rerank_score', 0) is
Option.getD, len(set(...)) is the length after deduplication. -/
def get_search_statistics (retrieved : List Chunk) : SearchStats :=
  if retrieved = [] then ⟨0, 0, 0, 0, (0, 0)⟩
  else
    let scores : List Int := retrieved.map (fun c => c.rerank_score.getD 0)
    ⟨retrieved.length,
      (dedupFirst (retrieved.map (fun c => c.page_number))).length,
      (dedupFirst (retrieved.map (fun c => c.heading))).length,
      (scores.sum : Rat) / (retrieved.length : Rat),
      (listMinI scores, listMaxI scores)⟩

/-- The result dictionary of AdvancedRetriever.retrieve. -/
structure RetrievalResult where
  success : Bool
  chunks : List Chunk
  context : List Char
  statistics : SearchStats
  query : List Char
  error : Option (List Char)
deriving DecidableEq

/-- src/retrieval.py AdvancedRetriever.retrieve.  Only the external
collaborators reached inside the try block can raise, so the body is passed
as an Except value: ok with the retrieved chunks, or error with str(e) of the
exception that escaped to the handler. -/
def retrieveE (query : List Char) (body : Except (List Char) (List Chunk)) :
    RetrievalResult :=
  match body with
  | .ok retrieved =>
    ⟨true, retrieved, format_context_for_llm retrieved,
      get_search_statistics retrieved, query, none⟩
  | .error e =>
    ⟨false, [], ("Error occurred during retrieval.".data),
      get_search_statistics [], query, some e⟩

/-- AdvancedRetriever.retrieve with the pipeline of this file, whose model
never raises since the collaborator outcomes are explicit values. -/
def retrieve (query : List Char) (chunks : List Chunk) (semOracle : SemOracle)
    (predictE : PredictFn) : RetrievalResult :=
  retrieveE query (.ok (advanced_retrieval query chunks semOracle predictE))

/-- Flush of the page content buffer: a block is emitted only when the buffer
has content after stripping. -/
def flushBlock (pageNum : Nat) (heading buffer : List Char) : List Block :=
  if pystrip buffer = [] then [] else [⟨pageNum, heading, pystrip buffer⟩]

/-- The inner line loop of extract_structured_text on one page: skip blank
lines; on a heading match flush the buffer under the previous heading and
start collecting under the matched line; otherwise append the raw line and a
newline to the buffer.  Returns the blocks of the page and the heading that is
current when the page ends. -/
def processLines (pageNum : Nat) (heading buffer : List Char) :
    List (List Char) → List Block × List Char
  | [] => (flushBlock pageNum heading buffer, heading)
  | line :: rest =>
    if pystrip line = [] then processLines pageNum heading buffer rest
    else if headingMatch (pystrip line) then
      (flushBlock pageNum heading buffer ++ (processLines pageNum (pystrip line) [] rest).1,
        (processLines pageNum (pystrip line) [] rest).2)
    else processLines pageNum heading (buffer ++ line ++ ['\n']) rest

/-- The page loop of extract_structured_text: pages are numbered from 1 and
the current heading carries across pages; each page starts a fresh buffer. -/
def processPages (pageNum : Nat) (heading : List Char) :
    List (List Char) → List Block × List Char
  | [] => ([], heading)
  | p :: rest =>
    let here := processLines pageNum heading [] (splitLines p)
    let next := processPages (pageNum + 1) here.2 rest
    (here.1 ++ next.1, next.2)

/-- The blocks accumulated by the page loop of extract_structured_text. -/
def loopBlocks (pages : List (List Char)) : List Block :=
  (processPages 1 DEFAULT_HEADING pages).1

/-- src/pdf_processor.py extract_structured_text, the document modelled as the
ordered per-page texts produced by the external text source.  An empty
document returns ([], 0); text that strips to nothing returns no blocks; when
the loop produced no blocks but text exists, the single synthetic Document
Content block is emitted. -/
def extract_structured_text (pages : List (List Char)) : List Block × Nat :=
  if pages.length = 0 then ([], 0)
  else
    let totalText := pages.flatten
    let st := loopBlocks pages
    if pystrip totalText = [] then ([], pages.length)
    else if st = [] then ([⟨1, ("Document Content".data), pystrip totalText⟩], pages.length)
    else (st, pages.length)

/-- src/pdf_processor.py create_metadata_chunks; the
RecursiveCharacterTextSplitter is the external splitter collaborator. -/
def create_metadata_chunks (splitter : List Char → List (List Char))
    (structured : List Block) : List Chunk :=
  structured.flatMap (fun b =>
    if pystrip b.content = [] then []
    else (splitter b.content).filterMap (fun t =>
      if pystrip t = [] then none
      else some ⟨pystrip t, b.page_number, b.heading, none, none⟩))

/-- src/pdf_processor.py validate_pdf_content. -/
def validate_pdf_content (structured : List Block) (chunks : List Chunk) :
    Bool × List Char :=
  if structured = [] then
    (false, ("No structured text could be extracted from the PDF".data))
  else if chunks = [] then
    (false, ("No valid text chunks could be created from the PDF content".data))
  else if chunks.filter (fun c => decide (10 < (pystrip c.text).length)) = [] then
    (false, ("PDF content appears to be too short or fragmented".data))
  else
    (true, ("Successfully processed PDF with ".data) ++ natChars chunks.length ++ (" chunks".data))

/-- The result dictionary of PDFProcessor.process_pdf on success. -/
structure ProcessResult where
  structured_text : List Block
  chunks : List Chunk
  total_pages : Nat
  total_chunks : Nat
  message : List Char
deriving DecidableEq

/-- src/pdf_processor.py PDFProcessor.process_pdf: extraction, chunking and
validation; a failed stage publishes only an error message, never a result. -/
def process_pdf (splitter : List Char → List (List Char))
    (pages : List (List Char)) : Bool × Except (List Char) ProcessResult :=
  let ex := extract_structured_text pages
  if ex.1 = [] ∨ ex.2 = 0 then
    (false, .error ("Failed to extract content from PDF".data))
  else
    let chunks := create_metadata_chunks splitter ex.1
    let v := validate_pdf_content ex.1 chunks
    if v.1 then (true, .ok ⟨ex.1, chunks, ex.2, chunks.length, v.2⟩)
    else (false, .error v.2)

/-- Positions in the shared chunk store holding a given heading, in order. -/
def indexList (store : List Chunk) (heading : List Char) : List Nat :=
  store.enum.filterMap (fun p => if p.2.heading == heading then some p.1 else none)

/-- structural_search at the store level: the same walk as structural_search,
but returning positions into the shared chunk store, which is how the Python
list of dict references behaves under later in-place writes. -/
def structural_refs (query : List Char) (store : List Chunk) : List Nat :=
  (uniqueHeadingsSorted store).foldl
    (fun acc h => if headingHit query h then acc ++ indexList store h else acc) []

/-- Read a store position (total, with a placeholder out of range; the
positions used always are in range). -/
def getChunkD (store : List Chunk) (r : Nat) : Chunk := store.getD r defaultChunk

/-- One in-place write chunk['rerank_score'] = float(scores[i]) on the store. -/
def writeScore (store : List Chunk) (p : Nat × Int) : List Chunk :=
  store.set p.1 { getChunkD store p.1 with rerank_score := some p.2 }

/-- The annotation loop of rerank_results as in-place writes on the store;
zipping truncates to the scores that exist, as the Python loop does before an
IndexError would interrupt it. -/
def writeScores (store : List Chunk) (ps : List (Nat × Int)) : List Chunk :=
  ps.foldl writeScore store

/-- Descending tie-stable order on store positions by written rerank score. -/
def refBefore (store : List Chunk) (r1 r2 : Nat) : Bool :=
  decide (scoreKey (getChunkD store r2) ≤ scoreKey (getChunkD store r1))

/-- rerank_results at the store level: candidates are positions into the
shared store and the score annotations are in-place writes to it; returns the
reordered candidates and the store as the call leaves it. -/
def rerank_results_st (query : List Char) (refs : List Nat) (store : List Chunk)
    (predictE : PredictFn) : List Nat × List Chunk :=
  if refs = [] then ([], store)
  else
    match predictE (refs.map (fun r => (query, (getChunkD store r).text))) with
    | .error _ => (refs, store)
    | .ok scores =>
      let store2 := writeScores store (refs.zip scores)
      if refs.length ≤ scores.length then (sortOrd (refBefore store2) refs, store2)
      else (refs, store2)

/-- advanced_retrieval at the store level, exposing its effect on the shared
input chunk list: the structural path passes store references to the reranker
(Python passes the original dicts), while the semantic path passes fresh
copies made by semantic_search, leaving the store untouched. -/
def advanced_retrieval_st (query : List Char) (store : List Chunk)
    (semOracle : SemOracle) (predictE : PredictFn) : List Chunk × List Chunk :=
  let refs := structural_refs query store
  if refs ≠ [] then
    let reranked := rerank_results_st query refs store predictE
    ((reranked.1.map (getChunkD reranked.2)).take STRUCTURAL_SEARCH_TOP_K, reranked.2)
  else
    let semantic_results := semantic_search (semOracle query SEMANTIC_SEARCH_TOP_K) store
    if semantic_results ≠ [] then
      ((rerank_results query semantic_results predictE).take SEMANTIC_FALLBACK_TOP_K, store)
    else ([], store)

/-- A chunk with its query-time rerank annotation erased, to state which
fields retrieval may change on the shared store. -/
def eraseScore (c : Chunk) : Chunk := { c with rerank_score := none }

/-- Words of a line as the segmenter accounts for it: a line whose stripped
form matches the heading pattern contributes no content words. -/
def lineWords (l : List Char) : List (List Char) :=
  if headingMatch (pystrip l) then [] else words l

/-- Content words of one page: words of its non-heading lines, in order. -/
def pageNonHeadingWords (p : List Char) : List (List Char) :=
  ((splitLines p).map lineWords).flatten

/-- The word sequence of the extracted text with heading lines removed. -/
def nonHeadingWords (pages : List (List Char)) : List (List Char) :=
  (pages.map pageNonHeadingWords).flatten

/-- The concatenated content of a block sequence, compared at the level of
words (equality up to whitespace normalization). -/
def blockWords (bs : List Block) : List (List Char) :=
  (bs.map (fun b => words b.content)).flatten

/-! Properties of the stable insertion sort modelling Python's sorted(). -/

theorem insertOrd_perm (before : α → α → Bool) (a : α) (l : List α) :
    (insertOrd before a l).Perm (a :: l) := by
  induction l with
  | nil => simp [insertOrd]
  | cons b bs ih =>
    unfold insertOrd
    by_cases h : before a b
    · simp [h]
    · simp only [h, if_false]
      exact (ih.cons b).trans (List.Perm.swap a b bs)

theorem sortOrd_perm (before : α → α → Bool) (l : List α) :
    (sortOrd before l).Perm l := by
  induction l with
  | nil => simp [sortOrd]
  | cons a l ih =>
    have : sortOrd before (a :: l) = insertOrd before a (sortOrd before l) := rfl
    rw [this]
    exact (insertOrd_perm before a (sortOrd before l)).trans (ih.cons a)

theorem insertOrd_head (before : α → α → Bool) (a : α) (l : List α) :
    (insertOrd before a l).head? = some a ∨ (insertOrd before a l).head? = l.head? := by
  cases l with
  | nil => left; rfl
  | cons b bs =>
    unfold insertOrd
    by_cases h : before a b
    · left; simp [h]
    · right; simp [h]

theorem chain'_insertOrd {R : α → α → Prop} (before : α → α → Bool)
    (H1 : ∀ x y, before x y = true → R x y) (H2 : ∀ x y, before x y = false → R y x)
    (a : α) (l : List α) (hl : l.Chain' R) : (insertOrd before a l).Chain' R := by
  induction l with
  | nil => simp [insertOrd]
  | cons b bs ih =>
    unfold insertOrd
    by_cases h : before a b
    · simp only [h, if_true]
      exact List.Chain'.cons (H1 a b h) hl
    · simp only [h, if_false]
      refine List.chain'_cons'.mpr ⟨?_, ih hl.tail⟩
      intro y hy
      rcases insertOrd_head before a bs with hh | hh
      · rw [hh] at hy
        cases hy
        exact H2 a b (by simpa using h)
      · rw [hh] at hy
        exact (List.chain'_cons'.mp hl).1 y hy

theorem chain'_sortOrd {R : α → α → Prop} (before : α → α → Bool)
    (H1 : ∀ x y, before x y = true → R x y) (H2 : ∀ x y, before x y = false → R y x)
    (l : List α) : (sortOrd before l).Chain' R := by
  induction l with
  | nil => simp [sortOrd]
  | cons a l ih => exact chain'_insertOrd before H1 H2 a (sortOrd before l) ih

theorem filter_insertOrd (p : α → Bool) (before : α → α → Bool)
    (H : ∀ x y, p x = true → p y = true → before x y = true)
    (a : α) (l : List α) : (insertOrd before a l).filter p = (a :: l).filter p := by
  induction l with
  | nil => rfl
  | cons b bs ih =>
    unfold insertOrd
    by_cases h : before a b
    · simp [h]
    · simp only [h, if_false]
      by_cases pa : p a = true <;> by_cases pb : p b = true
      · exact absurd (H a b pa pb) (by simpa using h)
      · simp [List.filter_cons, pa, pb, ih]
      · simp [List.filter_cons, pa, pb, ih]
      · simp [List.filter_cons, pa, pb, ih]

theorem filter_sortOrd (p : α → Bool) (before : α → α → Bool)
    (H : ∀ x y, p x = true → p y = true → before x y = true)
    (l : List α) : (sortOrd before l).filter p = l.filter p := by
  induction l with
  | nil => rfl
  | cons a l ih =>
    have h1 : sortOrd before (a :: l) = insertOrd before a (sortOrd before l) := rfl
    rw [h1, filter_insertOrd p before H, List.filter_cons, List.filter_cons, ih]

theorem mem_sortOrd (before : α → α → Bool) (l : List α) (x : α) :
    x ∈ sortOrd before l ↔ x ∈ l :=
  (sortOrd_perm before l).mem_iff

/-- The annotation loop on scores produced by a total pairwise scorer. -/
theorem annotateScores_map (chunks : List Chunk) (f : Chunk → Int) :
    annotateScores chunks (chunks.map f) =
      chunks.map (fun c => { c with rerank_score := some (f c) }) := by
  induction chunks with
  | nil => rfl
  | cons c cs ih => simp [annotateScores, List.zipWith] at ih ⊢; exact ih

/-- rerank_results on a non-empty candidate list whose predict call returns
enough scores: annotate and stably sort. -/
theorem rerank_results_ok (q : List Char) (chunks : List Chunk) (scores : List Int)
    (pE : PredictFn) (h : chunks ≠ []) (hlen : chunks.length ≤ scores.length)
    (hpe : pE (chunks.map (fun c => (q, c.text))) = .ok scores) :
    rerank_results q chunks pE = sortOrd scoreBefore (annotateScores chunks scores) := by
  simp only [rerank_results, h, if_false, hpe]
  rw [if_pos hlen]

/-- The scores a total pairwise scorer produces for the rerank pairs. -/
theorem totalPredict_eq (q : List Char) (chunks : List Chunk)
    (scorer : List Char → List Char → Int) :
    totalPredict scorer (chunks.map (fun c => (q, c.text))) =
      .ok (chunks.map (fun c => scorer q c.text)) := by
  simp [totalPredict]

/-- C5: with a total pairwise scorer (the spec's cross-encoder collaborator),
rerank_results returns a permutation of its input with the rerank scores
attached, the rerank scores along the output are non-increasing, ties are
broken by original candidate order (for every score value, the subsequence of
chunks carrying it is exactly the annotated input subsequence, the standard
characterisation of a stable sort), and forgetting the score annotation the
output is a permutation of the original input chunks. -/
theorem C5_rerank_stable_descending_permutation (q : List Char) (chunks : List Chunk)
    (scorer : List Char → List Char → Int) :
    (rerank_results q chunks (totalPredict scorer)).Perm
        (chunks.map (fun c => { c with rerank_score := some (scorer q c.text) })) ∧
    List.Chain' (fun a b => scoreKey b ≤ scoreKey a)
        (rerank_results q chunks (totalPredict scorer)) ∧
    (∀ s : Int,
      (rerank_results q chunks (totalPredict scorer)).filter (fun c => scoreKey c == s) =
        (chunks.map (fun c => { c with rerank_score := some (scorer q c.text) })).filter
          (fun c => scoreKey c == s)) ∧
    ((rerank_results q chunks (totalPredict scorer)).map eraseScore).Perm
        (chunks.map eraseScore) := by
  have hout : rerank_results q chunks (totalPredict scorer) =
      sortOrd scoreBefore
        (chunks.map (fun c => { c with rerank_score := some (scorer q c.text) })) := by
    by_cases h : chunks = []
    · subst h; rfl
    · rw [rerank_results_ok q chunks (chunks.map (fun c => scorer q c.text))
        (totalPredict scorer) h (by simp) (totalPredict_eq q chunks scorer),
        annotateScores_map]
  have H1 : ∀ x y : Chunk, scoreBefore x y = true → scoreKey y ≤ scoreKey x := by
    intro x y h; exact of_decide_eq_true h
  have H2 : ∀ x y : Chunk, scoreBefore x y = false → scoreKey x ≤ scoreKey y := by
    intro x y h
    exact le_of_not_le (of_decide_eq_false h)
  refine ⟨?_, ?_, ?_, ?_⟩
  · rw [hout]; exact sortOrd_perm _ _
  · rw [hout]
    exact chain'_sortOrd scoreBefore H1 (fun x y h => H2 x y h) _
  · intro s
    rw [hout]
    refine filter_sortOrd _ _ ?_ _
    intro x y hx hy
    have hx' : scoreKey x = s := by simpa using hx
    have hy' : scoreKey y = s := by simpa using hy
    unfold scoreBefore
    rw [hx', hy']
    simp
  · rw [hout]
    refine ((sortOrd_perm _ _).map eraseScore).trans ?_
    rw [List.map_map]
    have : eraseScore ∘ (fun c : Chunk => { c with rerank_score := some (scorer q c.text) }) =
        eraseScore := rfl
    rw [this]

/-- C6: rerank_results on an empty candidate list returns the empty list for
every reranker collaborator whatsoever (so in particular without invoking it),
and for every query and candidate list a reranker whose predict call raises
makes rerank_results hand the candidates back in their pre-rerank order. -/
theorem C6_rerank_empty_and_failure_fallback :
    (∀ (q : List Char) (predictE : PredictFn), rerank_results q [] predictE = []) ∧
    (∀ (q : List Char) (chunks : List Chunk) (e : List Char),
      rerank_results q chunks (fun _ => .error e) = chunks) := by
  constructor
  · intro q predictE; rfl
  · intro q chunks e
    by_cases h : chunks = []
    · subst h; rfl
    · unfold rerank_results
      rw [if_neg h]

/-- C1: whenever the structural matcher returns at least one chunk, the hybrid
advanced_retrieval is independent of the (embedding model + vector index)
collaborator — it is never invoked — and its result is exactly the reranked
structural chunks truncated to the configured structural top-K of 10. -/
theorem C1_structural_hit_bypasses_vector_index (q : List Char) (chunks : List Chunk)
    (predictE : PredictFn) (h : structural_search q chunks ≠ []) :
    (∀ sem sem' : SemOracle,
      advanced_retrieval q chunks sem predictE = advanced_retrieval q chunks sem' predictE) ∧
    (∀ sem : SemOracle,
      advanced_retrieval q chunks sem predictE =
        (rerank_results q (structural_search q chunks) predictE).take 10) := by
  constructor
  · intro sem sem'
    unfold advanced_retrieval
    simp only [h, ne_eq, not_false_eq_true, if_true]
  · intro sem
    unfold advanced_retrieval
    simp only [h, ne_eq, not_false_eq_true, if_true]
    rfl

/-- Witness for C1: a one-chunk document whose heading the query names; the
hypothesis holds and the conclusion is the reranked structural chunks cut to
ten, for a concrete vector-index collaborator. -/
theorem C1_witness :
    structural_search ['a'] [⟨['t'], 1, ['a'], none, none⟩] ≠ [] ∧
    advanced_retrieval ['a'] [⟨['t'], 1, ['a'], none, none⟩] (fun _ _ => .ok [])
        (totalPredict (fun _ _ => 0)) =
      (rerank_results ['a'] (structural_search ['a'] [⟨['t'], 1, ['a'], none, none⟩])
        (totalPredict (fun _ _ => 0))).take 10 :=
  ⟨by decide,
    (C1_structural_hit_bypasses_vector_index ['a'] [⟨['t'], 1, ['a'], none, none⟩]
      (totalPredict (fun _ _ => 0)) (by decide)).2 (fun _ _ => .ok [])⟩

/-- Folding the collect-if-hit step over a list equals appending the flat map
of the hits, as the structural_search loop does. -/
theorem foldl_collect {α β : Type} (p : α → Bool) (f : α → List β) :
    ∀ (hs : List α) (acc : List β),
      hs.foldl (fun acc h => if p h then acc ++ f h else acc) acc =
        acc ++ (hs.filter p).flatMap f := by
  intro hs
  induction hs with
  | nil => intro acc; simp
  | cons h t ih =>
    intro acc
    simp only [List.foldl_cons, List.filter_cons]
    by_cases hp : p h
    · simp [hp, ih, List.append_assoc]
    · simp [hp, ih]

theorem mem_dedupAux [DecidableEq α] :
    ∀ (l seen : List α) (x : α), x ∈ dedupAux seen l ↔ x ∈ l ∧ x ∉ seen := by
  intro l
  induction l with
  | nil => intro seen x; simp [dedupAux]
  | cons a t ih =>
    intro seen x
    unfold dedupAux
    by_cases ha : a ∈ seen
    · rw [if_pos ha, ih]
      constructor
      · rintro ⟨hx, hn⟩; exact ⟨List.mem_cons_of_mem a hx, hn⟩
      · rintro ⟨hx, hn⟩
        rcases List.mem_cons.mp hx with h | h
        · subst h; exact absurd ha hn
        · exact ⟨h, hn⟩
    · rw [if_neg ha]
      simp only [List.mem_cons, ih, List.mem_cons]
      constructor
      · rintro (rfl | ⟨hx, hn⟩)
        · exact ⟨Or.inl rfl, ha⟩
        · exact ⟨Or.inr hx, fun hs => hn (Or.inr hs)⟩
      · rintro ⟨hx | hx, hn⟩
        · exact Or.inl hx
        · by_cases hxa : x = a
          · exact Or.inl hxa
          · exact Or.inr ⟨hx, fun hs => hs.elim hxa hn⟩

theorem mem_dedupFirst [DecidableEq α] (l : List α) (x : α) :
    x ∈ dedupFirst l ↔ x ∈ l := by
  unfold dedupFirst
  rw [mem_dedupAux]
  simp

/-- The structural_search loop, written as filter and flat map. -/
theorem structural_search_eq_flatMap (q : List Char) (chunks : List Chunk) :
    structural_search q chunks =
      ((uniqueHeadingsSorted chunks).filter (headingHit q)).flatMap
        (fun h => chunks.filter (fun c => c.heading == h)) := by
  unfold structural_search
  rw [foldl_collect (headingHit q) _ (uniqueHeadingsSorted chunks) []]
  rfl

/-- C3 counterexample: two headings both hit by the query; the heading seen
first in the document is bb, but the code sorts unique headings by (length,
lexicographic) and therefore returns the chunks of heading a first, not in the
first-appearance order the claim states. -/
theorem C3_counterexample :
    structural_search ("bb a".data)
        [⟨['x'], 1, ['b', 'b'], none, none⟩, ⟨['y'], 2, ['a'], none, none⟩] =
      [⟨['y'], 2, ['a'], none, none⟩, ⟨['x'], 1, ['b', 'b'], none, none⟩] ∧
    structural_search_spec_order ("bb a".data)
        [⟨['x'], 1, ['b', 'b'], none, none⟩, ⟨['y'], 2, ['a'], none, none⟩] =
      [⟨['x'], 1, ['b', 'b'], none, none⟩, ⟨['y'], 2, ['a'], none, none⟩] ∧
    structural_search ("bb a".data)
        [⟨['x'], 1, ['b', 'b'], none, none⟩, ⟨['y'], 2, ['a'], none, none⟩] ≠
      structural_search_spec_order ("bb a".data)
        [⟨['x'], 1, ['b', 'b'], none, none⟩, ⟨['y'], 2, ['a'], none, none⟩] := by
  refine ⟨by decide, by decide, by decide⟩

/-- C3 amended: structural_search returns exactly the chunks whose heading,
after stripping a leading numbering prefix and lower-casing, occurs inside the
lower-cased query; the result lists the hit headings in the order given by
sorting the distinct headings by (length, then lexicographic) — not by first
appearance — with chunk order preserved within each heading; and with no hit
the result is empty. -/
theorem C3_amended_membership_and_order (q : List Char) (chunks : List Chunk) :
    (structural_search q chunks =
      ((uniqueHeadingsSorted chunks).filter (headingHit q)).flatMap
        (fun h => chunks.filter (fun c => c.heading == h))) ∧
    (∀ c : Chunk, c ∈ structural_search q chunks ↔
      c ∈ chunks ∧ headingHit q c.heading = true) ∧
    ((∀ c ∈ chunks, headingHit q c.heading = false) → structural_search q chunks = []) := by
  have hmem : ∀ c : Chunk, c ∈ structural_search q chunks ↔
      c ∈ chunks ∧ headingHit q c.heading = true := by
    intro c
    rw [structural_search_eq_flatMap]
    constructor
    · intro hc
      obtain ⟨h, hh, hcf⟩ := List.mem_flatMap.mp hc
      obtain ⟨hhs, hhit⟩ := List.mem_filter.mp hh
      obtain ⟨hcc, hceq⟩ := List.mem_filter.mp hcf
      have : c.heading = h := by simpa using hceq
      exact ⟨hcc, this ▸ hhit⟩
    · rintro ⟨hcc, hhit⟩
      refine List.mem_flatMap.mpr ⟨c.heading, ?_, ?_⟩
      · refine List.mem_filter.mpr ⟨?_, hhit⟩
        unfold uniqueHeadingsSorted
        rw [mem_sortOrd, mem_dedupFirst]
        exact List.mem_map.mpr ⟨c, hcc, rfl⟩
      · exact List.mem_filter.mpr ⟨hcc, by simp⟩
  refine ⟨structural_search_eq_flatMap q chunks, hmem, ?_⟩
  intro hnone
  rw [List.eq_nil_iff_forall_not_mem]
  intro c hc
  obtain ⟨hcc, hhit⟩ := (hmem c).mp hc
  rw [hnone c hcc] at hhit
  cases hhit

/-- Witness for C3's amended theorem at a concrete query and chunk list: the
membership characterisation and the no-hit case evaluated. -/
theorem C3_amended_witness :
    (⟨['y'], 2, ['a'], none, none⟩ : Chunk) ∈
        structural_search ("bb a".data)
          [⟨['x'], 1, ['b', 'b'], none, none⟩, ⟨['y'], 2, ['a'], none, none⟩] ∧
    structural_search ['q'] [⟨['x'], 1, ['b', 'b'], none, none⟩] = [] :=
  ⟨((C3_amended_membership_and_order ("bb a".data)
      [⟨['x'], 1, ['b', 'b'], none, none⟩, ⟨['y'], 2, ['a'], none, none⟩]).2.1
      ⟨['y'], 2, ['a'], none, none⟩).mpr ⟨by decide, by decide⟩,
    (C3_amended_membership_and_order ['q'] [⟨['x'], 1, ['b', 'b'], none, none⟩]).2.2
      (by decide)⟩

/-- C4: evaluation of the code at the failing input.  The index holds one
vector for the single chunk and top_k is 2, so faiss reports the real
neighbour (0, 2) and the padding row (-1, 999).  The guard idx < len(chunks)
lets -1 through and Python's negative indexing selects the last chunk, so the
padding row is not filtered out: the call returns two results, the second a
copy of the last chunk carrying the padding distance. -/
theorem C4_padding_index_selects_last_chunk :
    semantic_search (.ok [(0, 2), (-1, 999)]) [⟨['t'], 1, ['h'], none, none⟩] =
      [⟨['t'], 1, ['h'], some 2, none⟩, ⟨['t'], 1, ['h'], some 999, none⟩] ∧
    (semantic_search (.ok [(0, 2), (-1, 999)]) [⟨['t'], 1, ['h'], none, none⟩]).length = 2 := by
  refine ⟨by decide, by decide⟩

/-- C10 counterexample: an internal step that raises an exception whose
message is empty (as Python permits) produces a failure record whose error
string is empty, contradicting the claimed non-empty error string. -/
theorem C10_counterexample :
    (retrieveE ['q'] (.error [])).success = false ∧
    (retrieveE ['q'] (.error [])).error = some [] := by
  refine ⟨rfl, rfl⟩

/-- C10 amended: retrieve always returns a record; when the try body raises,
the record has success false, the exception's message (possibly empty) as its
error string, no chunks, the fixed context string, and the all-zero statistics
record; otherwise success true with the retrieved chunks, their formatted
context and their statistics. -/
theorem C10_retrieve_total_with_error_record (query : List Char)
    (body : Except (List Char) (List Chunk)) :
    (∀ e, body = .error e →
      retrieveE query body =
        ⟨false, [], ("Error occurred during retrieval.".data),
          ⟨0, 0, 0, 0, (0, 0)⟩, query, some e⟩) ∧
    (∀ l, body = .ok l →
      retrieveE query body =
        ⟨true, l, format_context_for_llm l, get_search_statistics l, query, none⟩) := by
  constructor
  · intro e he; subst he; rfl
  · intro l hl; subst hl; rfl

/-- Witness for C10's amended theorem at a concrete raised exception. -/
theorem C10_witness :
    retrieveE ['q'] (.error ['x']) =
      ⟨false, [], ("Error occurred during retrieval.".data),
        ⟨0, 0, 0, 0, (0, 0)⟩, ['q'], some ['x']⟩ :=
  (C10_retrieve_total_with_error_record ['q'] (.error ['x'])).1 ['x'] rfl

/-- C9: given non-empty structured text and a non-empty chunk list, the
ingestion validation accepts exactly when some chunk's trimmed text length
exceeds 10 characters; and whenever process_pdf reports failure it publishes
an error message and no result payload. -/
theorem C9_validation_meaningful_chunk_iff (structured : List Block) (chunks : List Chunk)
    (hs : structured ≠ []) (hc : chunks ≠ []) :
    ((validate_pdf_content structured chunks).1 = true ↔
      ∃ c ∈ chunks, 10 < (pystrip c.text).length) ∧
    (∀ (splitter : List Char → List (List Char)) (pages : List (List Char)),
      (process_pdf splitter pages).1 = false →
        ∃ e, (process_pdf splitter pages).2 = .error e) := by
  constructor
  · unfold validate_pdf_content
    rw [if_neg hs, if_neg hc]
    by_cases hf : chunks.filter (fun c => decide (10 < (pystrip c.text).length)) = []
    · rw [if_pos hf]
      constructor
      · intro h; exact absurd h (by simp)
      · rintro ⟨c, hcmem, hlen⟩
        have : c ∈ chunks.filter (fun c => decide (10 < (pystrip c.text).length)) :=
          List.mem_filter.mpr ⟨hcmem, by simpa using hlen⟩
        rw [hf] at this
        cases this
    · rw [if_neg hf]
      constructor
      · intro _
        obtain ⟨c, hc2⟩ := List.exists_mem_of_ne_nil _ hf
        have := List.mem_filter.mp hc2
        exact ⟨c, this.1, by simpa using this.2⟩
      · intro _; rfl
  · intro splitter pages hfail
    by_cases h1 : (extract_structured_text pages).1 = [] ∨ (extract_structured_text pages).2 = 0
    · exact ⟨("Failed to extract content from PDF".data), by simp [process_pdf, h1]⟩
    · by_cases h2 : (validate_pdf_content (extract_structured_text pages).1
        (create_metadata_chunks splitter (extract_structured_text pages).1)).1 = true
      · exfalso
        simp [process_pdf, h1, h2] at hfail
      · exact ⟨(validate_pdf_content (extract_structured_text pages).1
          (create_metadata_chunks splitter (extract_structured_text pages).1)).2,
          by simp [process_pdf, h1, h2]⟩

/-- Witness for C9: a document with one block and one twelve-character chunk
passes validation via the theorem's characterisation. -/
theorem C9_witness :
    (validate_pdf_content [⟨1, ['h'], ['x']⟩]
      [⟨("hello world!".data), 1, ['h'], none, none⟩]).1 = true :=
  (C9_validation_meaningful_chunk_iff [⟨1, ['h'], ['x']⟩]
    [⟨("hello world!".data), 1, ['h'], none, none⟩] (by decide) (by decide)).1.mpr
    ⟨⟨("hello world!".data), 1, ['h'], none, none⟩, by decide, by decide⟩

/-- Reading a position of a store after List.set. -/
theorem getChunkD_set (l : List Chunk) (r : Nat) (v : Chunk) :
    ∀ i, getChunkD (l.set r v) i = if i = r ∧ r < l.length then v else getChunkD l i := by
  induction l generalizing r with
  | nil => intro i; simp [getChunkD]
  | cons a t ih =>
    intro i
    cases r with
    | zero =>
      cases i with
      | zero => simp [getChunkD]
      | succ j => simp [getChunkD, List.getD_cons_succ]
    | succ s =>
      cases i with
      | zero => simp [getChunkD]
      | succ j =>
        have h1 : (a :: t).set (s + 1) v = a :: t.set s v := rfl
        rw [h1]
        have h2 : getChunkD (a :: t.set s v) (j + 1) = getChunkD (t.set s v) j := rfl
        have h3 : getChunkD (a :: t) (j + 1) = getChunkD t j := rfl
        rw [h2, h3, ih s j]
        simp only [List.length_cons]
        by_cases hj : j = s
        · subst hj
          by_cases hsl : j < t.length
          · rw [if_pos ⟨rfl, hsl⟩, if_pos ⟨rfl, Nat.succ_lt_succ hsl⟩]
          · rw [if_neg (fun hh => hsl hh.2),
              if_neg (fun hh => hsl (Nat.succ_lt_succ_iff.mp hh.2))]
        · rw [if_neg (fun hh => hj hh.1),
            if_neg (fun hh => hj (Nat.succ_injective hh.1))]

/-- The in-place score writes change nothing but the rerank_score fields. -/
theorem writeScores_mask :
    ∀ (ps : List (Nat × Int)) (store : List Chunk),
      (writeScores store ps).length = store.length ∧
      ∀ i, eraseScore (getChunkD (writeScores store ps) i) =
        eraseScore (getChunkD store i) := by
  intro ps
  induction ps with
  | nil => intro store; exact ⟨rfl, fun _ => rfl⟩
  | cons p t ih =>
    intro store
    have h1 : writeScores store (p :: t) = writeScores (writeScore store p) t := rfl
    obtain ⟨hlen, hmask⟩ := ih (writeScore store p)
    rw [h1]
    have hlen2 : (writeScore store p).length = store.length := List.length_set _ _ _
    refine ⟨by rw [hlen, hlen2], ?_⟩
    intro i
    rw [hmask i]
    unfold writeScore
    rw [getChunkD_set]
    by_cases h : i = p.1 ∧ p.1 < store.length
    · rw [if_pos h]
      rcases h with ⟨rfl, _⟩
      rfl
    · rw [if_neg h]

/-- The store rerank_results_st leaves behind: unchanged, or after writes. -/
theorem rerank_results_st_snd (q : List Char) (refs : List Nat) (store : List Chunk)
    (pE : PredictFn) :
    (rerank_results_st q refs store pE).2 = store ∨
    ∃ scores, (rerank_results_st q refs store pE).2 = writeScores store (refs.zip scores) := by
  unfold rerank_results_st
  by_cases h : refs = []
  · left; simp [h]
  · rw [if_neg h]
    cases hpe : pE (refs.map (fun r => (q, (getChunkD store r).text))) with
    | error e => left; rfl
    | ok scores =>
      right
      refine ⟨scores, ?_⟩
      by_cases hl : refs.length ≤ scores.length <;> simp [hl]

/-- C7 counterexample: a one-chunk store whose heading the query hits; the
structural path reranks the original chunk records, and the shared store comes
back changed (the chunk now carries a rerank score written in place). -/
theorem C7_counterexample :
    (advanced_retrieval_st ['a'] [⟨['t'], 1, ['a'], none, none⟩] (fun _ _ => .ok [])
        (totalPredict (fun _ _ => 7))).2 ≠ [⟨['t'], 1, ['a'], none, none⟩] := by
  decide

/-- C7 amended: hybrid retrieval leaves every chunk record of the input list
unchanged when the structural matcher misses (the semantic path works on
copies), and in every case it changes at most the rerank_score field of the
shared records — but on a structural hit the rerank scores are written in
place onto the shared chunk records rather than onto per-query copies. -/
theorem C7_store_effect (q : List Char) (store : List Chunk) (sem : SemOracle)
    (pE : PredictFn) :
    (structural_refs q store = [] → (advanced_retrieval_st q store sem pE).2 = store) ∧
    ((advanced_retrieval_st q store sem pE).2.length = store.length ∧
      ∀ i, eraseScore (getChunkD (advanced_retrieval_st q store sem pE).2 i) =
        eraseScore (getChunkD store i)) := by
  have hmiss : structural_refs q store = [] → (advanced_retrieval_st q store sem pE).2 = store := by
    intro h
    unfold advanced_retrieval_st
    by_cases hs : semantic_search (sem q SEMANTIC_SEARCH_TOP_K) store ≠ [] <;>
      simp [h, hs]
  refine ⟨hmiss, ?_⟩
  by_cases h : structural_refs q store = []
  · rw [hmiss h]
    exact ⟨rfl, fun _ => rfl⟩
  · have h2 : (advanced_retrieval_st q store sem pE).2 =
        (rerank_results_st q (structural_refs q store) store pE).2 := by
      unfold advanced_retrieval_st
      simp [h]
    rw [h2]
    rcases rerank_results_st_snd q (structural_refs q store) store pE with hok | ⟨scores, hw⟩
    · rw [hok]; exact ⟨rfl, fun _ => rfl⟩
    · rw [hw]; exact writeScores_mask _ store

/-- Witness for C7's amended theorem: a query hitting no heading leaves the
concrete store untouched. -/
theorem C7_witness :
    (advanced_retrieval_st ['q'] [⟨['t'], 1, ['z'], none, none⟩] (fun _ _ => .ok [])
        (totalPredict (fun _ _ => 7))).2 = [⟨['t'], 1, ['z'], none, none⟩] :=
  (C7_store_effect ['q'] [⟨['t'], 1, ['z'], none, none⟩] (fun _ _ => .ok [])
    (totalPredict (fun _ _ => 7))).1 (by decide)

/-! Word-level properties of the segmenter, for the content-preservation
claims: `words` is invariant under stripping, splits at whitespace, and the
page loop accounts for every non-heading word. -/

theorem wordsAux_cons_ws (c : Char) (cs acc : List Char) (h : pyWs c = true) :
    wordsAux (c :: cs) acc = flushW acc ++ wordsAux cs [] := by
  simp [wordsAux, h]

theorem wordsAux_cons_not_ws (c : Char) (cs acc : List Char) (h : pyWs c = false) :
    wordsAux (c :: cs) acc = wordsAux cs (c :: acc) := by
  simp [wordsAux, h]

theorem splitLines_cons_nl (cs : List Char) : splitLines ('\n' :: cs) = [] :: splitLines cs := by
  simp [splitLines]

theorem splitLines_cons_other (c : Char) (cs : List Char) (l2 : List Char)
    (ls2 : List (List Char)) (h : (c == '\n') = false) (hs : splitLines cs = l2 :: ls2) :
    splitLines (c :: cs) = (c :: l2) :: ls2 := by
  simp [splitLines, h, hs]

theorem wordsAux_allWs (t : List Char) (ht : ∀ c ∈ t, pyWs c = true) :
    ∀ acc, wordsAux t acc = flushW acc := by
  induction t with
  | nil => intro acc; rfl
  | cons c cs ih =>
    intro acc
    have hc : pyWs c = true := ht c (List.mem_cons_self c cs)
    have hcs : ∀ d ∈ cs, pyWs d = true := fun d hd => ht d (List.mem_cons_of_mem c hd)
    rw [wordsAux_cons_ws c cs acc hc, ih hcs []]
    simp [flushW]

theorem wordsAux_append_allWs (t : List Char) (ht : ∀ c ∈ t, pyWs c = true) :
    ∀ (b acc : List Char), wordsAux (b ++ t) acc = wordsAux b acc := by
  intro b
  induction b with
  | nil =>
    intro acc
    rw [List.nil_append, wordsAux_allWs t ht acc]
    rfl
  | cons d bs ih =>
    intro acc
    rw [List.cons_append]
    by_cases hd : pyWs d = true
    · rw [wordsAux_cons_ws d (bs ++ t) acc hd, wordsAux_cons_ws d bs acc hd, ih []]
    · rw [wordsAux_cons_not_ws d (bs ++ t) acc (by simpa using hd),
        wordsAux_cons_not_ws d bs acc (by simpa using hd), ih (d :: acc)]

theorem wordsAux_sep (c : Char) (hc : pyWs c = true) :
    ∀ (xs : List Char) (acc ys : List Char),
      wordsAux (xs ++ c :: ys) acc = wordsAux xs acc ++ wordsAux ys [] := by
  intro xs
  induction xs with
  | nil =>
    intro acc ys
    rw [List.nil_append, wordsAux_cons_ws c ys acc hc]
    rfl
  | cons d ds ih =>
    intro acc ys
    rw [List.cons_append]
    by_cases hd : pyWs d = true
    · rw [wordsAux_cons_ws d (ds ++ c :: ys) acc hd, wordsAux_cons_ws d ds acc hd,
        ih [] ys, List.append_assoc]
    · rw [wordsAux_cons_not_ws d (ds ++ c :: ys) acc (by simpa using hd),
        wordsAux_cons_not_ws d ds acc (by simpa using hd), ih (d :: acc) ys]

theorem words_dropWhileWs (l : List Char) : words (l.dropWhile pyWs) = words l := by
  induction l with
  | nil => rfl
  | cons c cs ih =>
    by_cases hc : pyWs c = true
    · have h1 : (c :: cs).dropWhile pyWs = cs.dropWhile pyWs := by
        simp [List.dropWhile_cons, hc]
      rw [h1, ih]
      unfold words
      rw [wordsAux_cons_ws c cs [] hc]
      rfl
    · simp [List.dropWhile_cons, hc]

theorem words_pystrip (l : List Char) : words (pystrip l) = words l := by
  unfold pystrip
  have hsplit : l.dropWhile pyWs =
      ((l.dropWhile pyWs).reverse.dropWhile pyWs).reverse ++
        ((l.dropWhile pyWs).reverse.takeWhile pyWs).reverse := by
    conv_lhs => rw [← List.reverse_reverse (l.dropWhile pyWs),
      ← List.takeWhile_append_dropWhile pyWs (l.dropWhile pyWs).reverse]
    rw [List.reverse_append]
  have hws : ∀ c ∈ ((l.dropWhile pyWs).reverse.takeWhile pyWs).reverse, pyWs c = true := by
    intro c hcmem
    exact List.mem_takeWhile_imp (List.mem_reverse.mp hcmem)
  have h1 : words (l.dropWhile pyWs) =
      words ((l.dropWhile pyWs).reverse.dropWhile pyWs).reverse := by
    conv_lhs => rw [hsplit]
    exact wordsAux_append_allWs _ hws _ []
  rw [← h1, words_dropWhileWs]

theorem flushW_ne_nil (acc : List Char) (h : acc ≠ []) : flushW acc = [acc.reverse] := by
  unfold flushW
  rw [if_neg h]

theorem wordsAux_eq_nil (l : List Char) :
    ∀ acc, wordsAux l acc = [] → acc = [] ∧ ∀ c ∈ l, pyWs c = true := by
  induction l with
  | nil =>
    intro acc h
    have hacc : acc = [] := by
      by_contra hacc
      rw [show wordsAux [] acc = flushW acc from rfl, flushW_ne_nil acc hacc] at h
      cases h
    exact ⟨hacc, fun c hc => absurd hc (List.not_mem_nil c)⟩
  | cons c cs ih =>
    intro acc h
    by_cases hc : pyWs c = true
    · rw [wordsAux_cons_ws c cs acc hc] at h
      obtain ⟨h1, h2⟩ := List.append_eq_nil.mp h
      have hacc : acc = [] := by
        by_contra hacc
        rw [flushW_ne_nil acc hacc] at h1
        cases h1
      refine ⟨hacc, ?_⟩
      intro d hd
      rcases List.mem_cons.mp hd with h | h
      · subst h; exact hc
      · exact ((ih [] h2).2) d h
    · rw [wordsAux_cons_not_ws c cs acc (by simpa using hc)] at h
      cases (ih (c :: acc) h).1

theorem words_eq_nil_imp (l : List Char) (h : words l = []) : ∀ c ∈ l, pyWs c = true :=
  (wordsAux_eq_nil l [] h).2

theorem pystrip_eq_nil_of_allWs (l : List Char) (h : ∀ c ∈ l, pyWs c = true) :
    pystrip l = [] := by
  unfold pystrip
  rw [List.dropWhile_eq_nil_iff.mpr h]
  rfl

theorem words_eq_nil_of_pystrip (l : List Char) (h : pystrip l = []) : words l = [] := by
  rw [← words_pystrip l, h]
  rfl

theorem splitLines_ne_nil (cs : List Char) : splitLines cs ≠ [] := by
  cases cs with
  | nil => simp [splitLines]
  | cons c cs =>
    unfold splitLines
    by_cases h : (c == '\n') = true
    · simp [h]
    · rw [if_neg (by simpa using h)]
      cases hs : splitLines cs <;> simp

theorem wordsAux_splitLines :
    ∀ (cs : List Char) (acc : List Char) (l : List Char) (ls : List (List Char)),
      splitLines cs = l :: ls →
      wordsAux cs acc = wordsAux l acc ++ (ls.map (fun x => wordsAux x [])).flatten := by
  intro cs
  induction cs with
  | nil =>
    intro acc l ls h
    have h0 : ([[]] : List (List Char)) = l :: ls := h
    cases h0
    simp
  | cons c cs ih =>
    intro acc l ls h
    obtain ⟨l2, ls2, hs⟩ : ∃ l2 ls2, splitLines cs = l2 :: ls2 := by
      cases hs : splitLines cs with
      | nil => exact absurd hs (splitLines_ne_nil cs)
      | cons a b => exact ⟨a, b, rfl⟩
    by_cases hc : (c == '\n') = true
    · have hceq : c = '\n' := by simpa using hc
      subst hceq
      rw [splitLines_cons_nl cs, hs] at h
      injection h with hl hls
      subst hl
      subst hls
      rw [wordsAux_cons_ws '\n' cs acc (by decide), ih [] l2 ls2 hs]
      show flushW acc ++ (wordsAux l2 [] ++ _) = wordsAux [] acc ++ _
      rw [show wordsAux [] acc = flushW acc from rfl]
      simp [List.append_assoc]
    · rw [splitLines_cons_other c cs l2 ls2 (by simpa using hc) hs] at h
      injection h with hl hls
      subst hl
      subst hls
      by_cases hw : pyWs c = true
      · rw [wordsAux_cons_ws c cs acc hw, wordsAux_cons_ws c l2 acc hw,
          ih [] l2 ls2 hs, List.append_assoc]
      · rw [wordsAux_cons_not_ws c cs acc (by simpa using hw),
          wordsAux_cons_not_ws c l2 acc (by simpa using hw), ih (c :: acc) l2 ls2 hs]

theorem words_eq_flatten_lines (cs : List Char) :
    words cs = ((splitLines cs).map words).flatten := by
  cases hs : splitLines cs with
  | nil => exact absurd hs (splitLines_ne_nil cs)
  | cons l ls =>
    show wordsAux cs [] = _
    rw [wordsAux_splitLines cs [] l ls hs]
    rfl

/-- The page content buffer is empty or ends with the newline the loop
appended after the last accumulated line. -/
def BufOk (b : List Char) : Prop := b = [] ∨ ∃ a, b = a ++ ['\n']

theorem words_append_bufOk (b z : List Char) (h : BufOk b) :
    words (b ++ z) = words b ++ words z := by
  rcases h with rfl | ⟨a, rfl⟩
  · rfl
  · have h1 : (a ++ ['\n']) ++ z = a ++ '\n' :: z := by simp
    rw [h1]
    unfold words
    rw [wordsAux_sep '\n' (by decide) a [] z,
      wordsAux_append_allWs ['\n'] (by intro c hc; simp at hc; subst hc; decide) a []]

theorem flushBlock_words (n : Nat) (h buf : List Char) :
    blockWords (flushBlock n h buf) = words buf := by
  unfold flushBlock blockWords
  by_cases hb : pystrip buf = []
  · rw [if_pos hb]
    rw [show words buf = [] from words_eq_nil_of_pystrip buf hb]
    rfl
  · rw [if_neg hb]
    show words (pystrip buf) ++ [] = words buf
    rw [List.append_nil, words_pystrip]

theorem blockWords_append (bs cs : List Block) :
    blockWords (bs ++ cs) = blockWords bs ++ blockWords cs := by
  unfold blockWords
  rw [List.map_append, List.flatten_append]

theorem lineWords_of_blank (l : List Char) (h : pystrip l = []) : lineWords l = [] := by
  unfold lineWords
  rw [h]
  rw [if_neg (by rw [show headingMatch [] = false by decide]; simp)]
  exact words_eq_nil_of_pystrip l h

theorem processLines_words (n : Nat) :
    ∀ (ls : List (List Char)) (h buf : List Char), BufOk buf →
      blockWords (processLines n h buf ls).1 =
        words buf ++ (ls.map lineWords).flatten := by
  intro ls
  induction ls with
  | nil =>
    intro h buf hb
    show blockWords (flushBlock n h buf) = words buf ++ [].flatten
    rw [flushBlock_words, List.flatten_nil, List.append_nil]
  | cons line rest ih =>
    intro h buf hb
    by_cases hblank : pystrip line = []
    · rw [show processLines n h buf (line :: rest) = processLines n h buf rest by
        simp [processLines, hblank]]
      rw [ih h buf hb]
      have : lineWords line = [] := lineWords_of_blank line hblank
      simp [this]
    · by_cases hmatch : headingMatch (pystrip line) = true
      · rw [show processLines n h buf (line :: rest) =
            (flushBlock n h buf ++ (processLines n (pystrip line) [] rest).1,
              (processLines n (pystrip line) [] rest).2) by
          simp [processLines, hblank, hmatch]]
        show blockWords (flushBlock n h buf ++ (processLines n (pystrip line) [] rest).1) = _
        rw [blockWords_append, flushBlock_words, ih (pystrip line) [] (Or.inl rfl)]
        have : lineWords line = [] := by unfold lineWords; rw [if_pos hmatch]
        simp [this]
        rfl
      · rw [show processLines n h buf (line :: rest) =
            processLines n h (buf ++ line ++ ['\n']) rest by
          simp [processLines, hblank, hmatch]]
        rw [ih h (buf ++ line ++ ['\n']) (Or.inr ⟨buf ++ line, by simp⟩)]
        have h1 : buf ++ line ++ ['\n'] = buf ++ (line ++ ['\n']) := by simp
        have h2 : words (line ++ ['\n']) = words line :=
          wordsAux_append_allWs ['\n']
            (by intro c hc; simp at hc; subst hc; decide) line []
        rw [h1, words_append_bufOk buf (line ++ ['\n']) hb, h2]
        have : lineWords line = words line := by
          unfold lineWords; rw [if_neg (by simpa using hmatch)]
        simp [this, List.append_assoc]

theorem processPages_words :
    ∀ (pages : List (List Char)) (n : Nat) (h : List Char),
      blockWords (processPages n h pages).1 = nonHeadingWords pages := by
  intro pages
  induction pages with
  | nil => intro n h; rfl
  | cons p rest ih =>
    intro n h
    show blockWords ((processLines n h [] (splitLines p)).1 ++
      (processPages (n + 1) (processLines n h [] (splitLines p)).2 rest).1) = _
    rw [blockWords_append, processLines_words n (splitLines p) h [] (Or.inl rfl), ih]
    show words [] ++ _ ++ _ = nonHeadingWords (p :: rest)
    rw [show words ([] : List Char) = [] from rfl, List.nil_append]
    rfl

theorem loopBlocks_words (pages : List (List Char)) :
    blockWords (loopBlocks pages) = nonHeadingWords pages :=
  processPages_words pages 1 DEFAULT_HEADING

theorem extract_structured_text_eq (pages : List (List Char))
    (h1 : pystrip pages.flatten ≠ []) (h2 : loopBlocks pages ≠ []) :
    extract_structured_text pages = (loopBlocks pages, pages.length) := by
  have hp : pages ≠ [] := by
    intro h
    subst h
    exact h2 rfl
  unfold extract_structured_text
  rw [if_neg (fun h0 => hp (List.length_eq_zero.mp h0))]
  simp only [h1, h2, if_false]

/-- C2 counterexample: a one-page document whose first line matches the
heading pattern.  The heading line's words go into the heading metadata, not
into any block's content, so the concatenated content of the produced blocks
differs from the extracted text up to whitespace normalization. -/
theorem C2_counterexample :
    pystrip (List.flatten [("1 Introduction\nhello".data)]) ≠ [] ∧
    blockWords ((extract_structured_text [("1 Introduction\nhello".data)]).1) ≠
      words (List.flatten [("1 Introduction\nhello".data)]) := by
  refine ⟨by decide, by decide⟩

/-- C2 amended: for every document whose extracted text is non-empty and whose
segmentation loop produces at least one block, the concatenation of the
content of the blocks equals, up to whitespace normalization (word for word),
the extracted text with its heading-matching lines removed — the heading
lines, and only they, are dropped from the content. -/
theorem C2_amended_content_words_preserved (pages : List (List Char))
    (h1 : pystrip pages.flatten ≠ []) (h2 : loopBlocks pages ≠ []) :
    blockWords (extract_structured_text pages).1 = nonHeadingWords pages := by
  rw [extract_structured_text_eq pages h1 h2]
  exact loopBlocks_words pages

/-- Witness for C2's amended theorem at the concrete one-page document. -/
theorem C2_amended_witness :
    pystrip (List.flatten [("1 Introduction\nhello".data)]) ≠ [] ∧
    loopBlocks [("1 Introduction\nhello".data)] ≠ [] ∧
    blockWords (extract_structured_text [("1 Introduction\nhello".data)]).1 =
      nonHeadingWords [("1 Introduction\nhello".data)] :=
  ⟨by decide, by decide,
    C2_amended_content_words_preserved [("1 Introduction\nhello".data)]
      (by decide) (by decide)⟩

theorem flushBlock_heading (n : Nat) (h buf : List Char) :
    ∀ b ∈ flushBlock n h buf, b.heading = h := by
  intro b hb
  unfold flushBlock at hb
  by_cases hp : pystrip buf = []
  · rw [if_pos hp] at hb; cases hb
  · rw [if_neg hp] at hb
    rcases List.mem_singleton.mp hb with rfl
    rfl

theorem processLines_heading (n : Nat) :
    ∀ (ls : List (List Char)) (h buf : List Char),
      (∀ l ∈ ls, headingMatch (pystrip l) = false) →
      (processLines n h buf ls).2 = h ∧
        ∀ b ∈ (processLines n h buf ls).1, b.heading = h := by
  intro ls
  induction ls with
  | nil =>
    intro h buf _
    exact ⟨rfl, flushBlock_heading n h buf⟩
  | cons line rest ih =>
    intro h buf hl
    have hline : headingMatch (pystrip line) = false :=
      hl line (List.mem_cons_self line rest)
    have hrest : ∀ l ∈ rest, headingMatch (pystrip l) = false :=
      fun l hmem => hl l (List.mem_cons_of_mem line hmem)
    by_cases hblank : pystrip line = []
    · rw [show processLines n h buf (line :: rest) = processLines n h buf rest by
        simp [processLines, hblank]]
      exact ih h buf hrest
    · rw [show processLines n h buf (line :: rest) =
          processLines n h (buf ++ line ++ ['\n']) rest by
        simp [processLines, hblank, hline]]
      exact ih h (buf ++ line ++ ['\n']) hrest

theorem processPages_heading :
    ∀ (pages : List (List Char)) (n : Nat) (h : List Char),
      (∀ p ∈ pages, ∀ l ∈ splitLines p, headingMatch (pystrip l) = false) →
      ∀ b ∈ (processPages n h pages).1, b.heading = h := by
  intro pages
  induction pages with
  | nil => intro n h _ b hb; cases hb
  | cons p rest ih =>
    intro n h hp b hb
    have hpl : ∀ l ∈ splitLines p, headingMatch (pystrip l) = false :=
      hp p (List.mem_cons_self p rest)
    have hrest : ∀ q ∈ rest, ∀ l ∈ splitLines q, headingMatch (pystrip l) = false :=
      fun q hq => hp q (List.mem_cons_of_mem p hq)
    obtain ⟨hsnd, hblocks⟩ := processLines_heading n (splitLines p) h [] hpl
    have hb2 : b ∈ (processLines n h [] (splitLines p)).1 ++
        (processPages (n + 1) (processLines n h [] (splitLines p)).2 rest).1 := hb
    rcases List.mem_append.mp hb2 with hmem | hmem
    · exact hblocks b hmem
    · rw [hsnd] at hmem
      exact ih (n + 1) h hrest b hmem

theorem no_heading_nonHeadingWords (pages : List (List Char))
    (H1 : ∀ p ∈ pages, ∀ l ∈ splitLines p, headingMatch (pystrip l) = false) :
    nonHeadingWords pages = (pages.map words).flatten := by
  unfold nonHeadingWords
  congr 1
  refine List.map_congr_left ?_
  intro p hp
  unfold pageNonHeadingWords
  rw [show (splitLines p).map lineWords = (splitLines p).map words from
    List.map_congr_left (fun l hl => by
      unfold lineWords
      rw [if_neg (by simpa using H1 p hp l hl)])]
  exact (words_eq_flatten_lines p).symm

theorem loopBlocks_ne_nil (pages : List (List Char))
    (H1 : ∀ p ∈ pages, ∀ l ∈ splitLines p, headingMatch (pystrip l) = false)
    (H2 : pystrip pages.flatten ≠ []) : loopBlocks pages ≠ [] := by
  intro hc
  have hw : nonHeadingWords pages = [] := by
    rw [← loopBlocks_words pages, hc]
    rfl
  rw [no_heading_nonHeadingWords pages H1] at hw
  have hallnil : ∀ p ∈ pages, words p = [] := by
    intro p hp
    exact List.flatten_eq_nil_iff.mp hw (words p) (List.mem_map.mpr ⟨p, hp, rfl⟩)
  have hws : ∀ c ∈ pages.flatten, pyWs c = true := by
    intro c hcmem
    obtain ⟨p, hp, hcp⟩ := List.mem_flatten.mp hcmem
    exact words_eq_nil_imp p (hallnil p hp) c hcp
  exact H2 (pystrip_eq_nil_of_allWs _ hws)

/-- C8 counterexample: a two-page document with non-empty text in which no
line matches the heading pattern.  The segmenter emits one block per page
under the default label Introduction — two blocks, not a single synthetic
block under a generic label. -/
theorem C8_counterexample :
    (∀ p ∈ [['a'], ['b']], ∀ l ∈ splitLines p, headingMatch (pystrip l) = false) ∧
    pystrip (List.flatten [['a'], ['b']]) ≠ [] ∧
    (extract_structured_text [['a'], ['b']]).1 =
      [⟨1, ("Introduction".data), ['a']⟩, ⟨2, ("Introduction".data), ['b']⟩] ∧
    (extract_structured_text [['a'], ['b']]).1.length ≠ 1 := by
  refine ⟨by decide, by decide, by decide, by decide⟩

/-- C8 amended: for every document with non-empty extracted text in which no
line matches the heading pattern, the segmenter emits the loop's blocks — a
non-empty block list, every block labelled with the default heading
Introduction, whose contents together hold exactly the words of every page in
order — a valid outcome; the single synthetic generic block is not produced
in this case (it appears only when the loop emits no blocks at all). -/
theorem C8_no_heading_default_blocks (pages : List (List Char))
    (H1 : ∀ p ∈ pages, ∀ l ∈ splitLines p, headingMatch (pystrip l) = false)
    (H2 : pystrip pages.flatten ≠ []) :
    (extract_structured_text pages).1 = loopBlocks pages ∧
    (extract_structured_text pages).1 ≠ [] ∧
    (∀ b ∈ (extract_structured_text pages).1, b.heading = DEFAULT_HEADING) ∧
    blockWords (extract_structured_text pages).1 = (pages.map words).flatten := by
  have hne := loopBlocks_ne_nil pages H1 H2
  have hex := extract_structured_text_eq pages H2 hne
  have hfst : (extract_structured_text pages).1 = loopBlocks pages := by rw [hex]
  refine ⟨hfst, by rw [hfst]; exact hne, ?_, ?_⟩
  · rw [hfst]
    exact processPages_heading pages 1 DEFAULT_HEADING H1
  · rw [hfst, loopBlocks_words]
    exact no_heading_nonHeadingWords pages H1

/-- Witness for C8's amended theorem at the concrete two-page document. -/
theorem C8_amended_witness :
    (extract_structured_text [['a'], ['b']]).1 ≠ [] :=
  (C8_no_heading_default_blocks [['a'], ['b']] (by decide) (by decide)).2.1
